import Mathlib

/-!
Verification of the liquid-leveling core (`src/equalizer.py`).

The module under study exposes three operations over a sequence of integer
reservoir volumes:

* `can_equalize(volumes)` — feasibility: the sequence can be leveled by
  "add 1 to the first k reservoirs" operations iff it is non-decreasing;
* `min_operations(volumes)` — the minimum number of unit operations, or the
  sentinel `-1` when infeasible; the Python function mutates the list it is
  handed, so we model it as returning both the final list contents and the
  returned count;
* `simulate_equalization(volumes)` — the same count together with the full
  trace of intermediate states, one snapshot per unit operation.

Lists of Python ints become `List Int`; in-place index assignment becomes an
explicit rebuild of the list; the `for i in range(n-2, -1, -1)` loops become
structural recursion on the number of remaining indices.
-/

namespace Equalizer

/-- The effect of the Python loop `for j in range(k): v[j] += d`: add `d`
to the first `k` elements of the list, leaving the rest unchanged. -/
def addFirst (k : Nat) (d : Int) (l : List Int) : List Int :=
  (l.take k).map (· + d) ++ l.drop k

/-- `can_equalize(volumes)` from `src/equalizer.py`: the loop
`for i in range(1, len(volumes)): if volumes[i] < volumes[i-1]: return False`
followed by `return True`, i.e. a scan over adjacent pairs. -/
def can_equalize : List Int → Bool
  | a :: b :: rest => if b < a then false else can_equalize (b :: rest)
  | _ => true

/-- The Python test `len(set(volumes)) == 1` of `min_operations`: the list is
non-empty and every element equals the first. -/
def allSame : List Int → Bool
  | [] => false
  | a :: t => t.all (fun b => b == a)

/-- The loop `for i in range(n-2, -1, -1)` of `min_operations`.  The fuel
argument is `i + 1` for the next index `i` to process, so `minOpsLoop (n-1)`
processes indices `n-2, n-3, ..., 0` (and `minOpsLoop 0` does nothing, as the
Python loop body never runs for `n ≤ 1`).  The state is the list being
mutated together with the `operations` accumulator. -/
def minOpsLoop : Nat → List Int × Int → List Int × Int
  | 0, st => st
  | m + 1, (v, ops) =>
      if v.getD m 0 < v.getD (m+1) 0 then
        minOpsLoop m (addFirst (m+1) (v.getD (m+1) 0 - v.getD m 0) v,
                      ops + (v.getD (m+1) 0 - v.getD m 0))
      else
        minOpsLoop m (v, ops)

/-- `min_operations(volumes)` from `src/equalizer.py`, with the observable
mutation made explicit: the first component is the content of the
caller-supplied list after the call returns (the Python function mutates the
list it is handed), the second is the returned value. -/
def min_operations_run (volumes : List Int) : List Int × Int :=
  if can_equalize volumes = false then (volumes, -1)
  else if allSame volumes then (volumes, 0)
  else minOpsLoop (volumes.length - 1) (volumes, 0)

/-- The integer `min_operations(volumes)` returns. -/
def min_operations (volumes : List Int) : Int :=
  (min_operations_run volumes).2

/-- "every i in [1, len(S)-1]: S[i] >= S[i-1]", phrased over adjacent pairs:
the list is non-decreasing. -/
def SortedLe (v : List Int) : Prop :=
  ∀ j, j < v.length - 1 → v.getD j 0 ≤ v.getD (j+1) 0

instance (v : List Int) : Decidable (SortedLe v) := by
  unfold SortedLe; infer_instance

/-- Python's `max(S)` on a non-empty list (0 on the empty list, which Python
would reject; every use below assumes non-emptiness). -/
def listMax : List Int → Int
  | [] => 0
  | a :: t => t.foldl max a

/- ### Basic facts about `addFirst` -/

theorem addFirst_length (k : Nat) (d : Int) (l : List Int) :
    (addFirst k d l).length = l.length := by
  simp [addFirst]; omega

theorem addFirst_getElem? (k : Nat) (d : Int) (l : List Int) (j : Nat) :
    (addFirst k d l)[j]? = if j < k then (l[j]?).map (· + d) else l[j]? := by
  unfold addFirst
  by_cases hjk : j < k
  · simp only [if_pos hjk]
    by_cases hjl : j < l.length
    · rw [List.getElem?_append_left (by simp; omega)]
      rw [List.getElem?_map, List.getElem?_take, if_pos hjk]
    · rw [List.getElem?_eq_none (by simp; omega), List.getElem?_eq_none (by omega)]
      rfl
  · simp only [if_neg hjk]
    by_cases hkl : k ≤ l.length
    · rw [List.getElem?_append_right (by simp; omega)]
      rw [List.getElem?_drop]
      congr 1
      simp
      omega
    · rw [List.getElem?_eq_none (by simp; omega), List.getElem?_eq_none (by omega)]

theorem addFirst_getD_lt (k : Nat) (d : Int) (l : List Int) (j : Nat)
    (hjk : j < k) (hjl : j < l.length) :
    (addFirst k d l).getD j 0 = l.getD j 0 + d := by
  rw [List.getD_eq_getElem?_getD, List.getD_eq_getElem?_getD, addFirst_getElem?,
    if_pos hjk, List.getElem?_eq_getElem hjl]
  rfl

theorem addFirst_getD_ge (k : Nat) (d : Int) (l : List Int) (j : Nat)
    (hjk : k ≤ j) :
    (addFirst k d l).getD j 0 = l.getD j 0 := by
  rw [List.getD_eq_getElem?_getD, List.getD_eq_getElem?_getD, addFirst_getElem?,
    if_neg (by omega)]

theorem addFirst_zero (k : Nat) (l : List Int) : addFirst k 0 l = l := by
  simp [addFirst]

theorem addFirst_addFirst (k : Nat) (c d : Int) (l : List Int) :
    addFirst k c (addFirst k d l) = addFirst k (c + d) l := by
  apply List.ext_getElem?
  intro j
  rw [addFirst_getElem?, addFirst_getElem?, addFirst_getElem?]
  by_cases hjk : j < k
  · simp only [if_pos hjk, Option.map_map]
    cases l[j]? <;> simp [Function.comp]
    ring
  · simp [if_neg hjk]

theorem getD_eq_default_of_le (l : List Int) (j : Nat) (h : l.length ≤ j) :
    l.getD j 0 = 0 := by
  rw [List.getD_eq_getElem?_getD, List.getElem?_eq_none h]
  rfl

/- ### The simulation (`simulate_equalization`) -/

/-- The inner loop `while current_volumes[i] < current_volumes[i+1]` of
`simulate_equalization`: apply the unit operation on the first `i+1`
reservoirs, count it and snapshot the state, until the gap at `i` closes.
It terminates because each pass raises `current_volumes[i]` by one and leaves
`current_volumes[i+1]` alone. -/
def simWhile (i : Nat) (v : List Int) (ops : Int) (states : List (List Int)) :
    List Int × Int × List (List Int) :=
  if h : v.getD i 0 < v.getD (i+1) 0 then
    simWhile i (addFirst (i+1) 1 v) (ops + 1) (states ++ [addFirst (i+1) 1 v])
  else
    (v, ops, states)
termination_by (v.getD (i+1) 0 - v.getD i 0).toNat
decreasing_by
  by_cases hi : i < v.length
  · rw [addFirst_getD_ge (i+1) 1 v (i+1) (le_refl _),
      addFirst_getD_lt (i+1) 1 v i (by omega) hi]
    omega
  · exfalso
    rw [getD_eq_default_of_le v i (by omega), getD_eq_default_of_le v (i+1) (by omega)] at h
    exact absurd h (by omega)

/-- The loop `for i in range(n-2, -1, -1)` of `simulate_equalization`; as in
`minOpsLoop` the fuel is `i + 1` for the next index `i` to process. -/
def simLoop : Nat → List Int × Int × List (List Int) → List Int × Int × List (List Int)
  | 0, st => st
  | m + 1, (v, ops, states) => simLoop m (simWhile m v ops states)

/-- `simulate_equalization(volumes)` from `src/equalizer.py`: the returned
pair `(operations, states)`.  The working list is a copy, so the input is
not mutated; the trace starts with the initial state. -/
def simulate_equalization (volumes : List Int) : Int × List (List Int) :=
  if can_equalize volumes = false then (-1, [volumes])
  else
    let r := simLoop (volumes.length - 1) (volumes, 0, [volumes])
    (r.2.1, r.2.2)

/- ### Sortedness -/

theorem sortedLe_addFirst (k : Nat) (d : Int) (v : List Int)
    (hs : SortedLe v)
    (hb : k < v.length → 1 ≤ k → v.getD (k-1) 0 + d ≤ v.getD k 0) :
    SortedLe (addFirst k d v) := by
  intro j hj
  rw [addFirst_length] at hj
  rcases Nat.lt_trichotomy (j+1) k with hlt | heq | hgt
  · rw [addFirst_getD_lt k d v j (by omega) (by omega),
      addFirst_getD_lt k d v (j+1) hlt (by omega)]
    have := hs j hj
    omega
  · rw [addFirst_getD_lt k d v j (by omega) (by omega),
      addFirst_getD_ge k d v (j+1) (by omega)]
    have := hb (by omega) (by omega)
    rw [show k - 1 = j by omega, show k = j + 1 by omega] at this
    exact this
  · rw [addFirst_getD_ge k d v j (by omega), addFirst_getD_ge k d v (j+1) (by omega)]
    exact hs j hj

theorem sortedLe_cons_cons (a b : Int) (t : List Int) :
    SortedLe (a :: b :: t) ↔ a ≤ b ∧ SortedLe (b :: t) := by
  constructor
  · intro h
    refine ⟨h 0 (by simp), ?_⟩
    intro j hj
    have := h (j+1) (by simp at hj ⊢; omega)
    simpa using this
  · rintro ⟨hab, h⟩
    intro j hj
    cases j with
    | zero => simpa using hab
    | succ j =>
      have := h j (by simp at hj ⊢; omega)
      simpa using this

/-- The feasibility check of the source agrees with the mathematical
non-decreasing predicate. -/
theorem can_equalize_iff (v : List Int) : can_equalize v = true ↔ SortedLe v := by
  induction v with
  | nil => simp [can_equalize, SortedLe]
  | cons a t ih =>
    cases t with
    | nil =>
      simp [can_equalize, SortedLe]
    | cons b rest =>
      rw [can_equalize, sortedLe_cons_cons]
      by_cases hba : b < a
      · simp [if_pos hba]
        intro hab
        omega
      · rw [if_neg hba, ih]
        simp
        intro _
        omega

/-- A non-decreasing list is monotone in its indices. -/
theorem sortedLe_getD_mono (v : List Int) (hs : SortedLe v) :
    ∀ p q, p ≤ q → q < v.length → v.getD p 0 ≤ v.getD q 0 := by
  intro p q hpq hq
  induction q with
  | zero =>
    have : p = 0 := by omega
    simp [this]
  | succ q ih =>
    rcases Nat.lt_or_ge p (q+1) with hp | hp
    · have h1 := ih (by omega) (by omega)
      have h2 := hs q (by omega)
      omega
    · have : p = q + 1 := by omega
      simp [this]

/- ### The `min_operations` loop -/

theorem drop_eq_getD_cons (l : List Int) (m : Nat) (h : m < l.length) :
    l.drop m = l.getD m 0 :: l.drop (m+1) := by
  rw [List.getD_eq_getElem l 0 h]
  exact List.drop_eq_getElem_cons h

/-- Closed form of the `min_operations` loop on a non-decreasing list: after
processing indices `m-1, ..., 0` the first `m+1` entries all hold the value
that stood at index `m`, the rest are untouched, and the accumulator grows by
the gap between index `m` and index `0`. -/
theorem minOpsLoop_spec (m : Nat) :
    ∀ (v : List Int) (ops : Int), SortedLe v → m < v.length →
    minOpsLoop m (v, ops) =
      (List.replicate (m+1) (v.getD m 0) ++ v.drop (m+1),
       ops + (v.getD m 0 - v.getD 0 0)) := by
  induction m with
  | zero =>
    intro v ops hs hm
    have hv : List.replicate 1 (v.getD 0 0) ++ v.drop 1 = v := by
      rw [show List.replicate 1 (v.getD 0 0) ++ v.drop 1 = v.getD 0 0 :: v.drop 1 by simp,
        ← drop_eq_getD_cons v 0 hm, List.drop_zero]
    rw [minOpsLoop, hv]
    simp only [Prod.mk.injEq]
    exact ⟨trivial, by ring⟩
  | succ m ih =>
    intro v ops hs hm
    have key : List.replicate (m+1+1) (v.getD (m+1) 0) ++ v.drop (m+1+1) =
        List.replicate (m+1) (v.getD (m+1) 0) ++ v.drop (m+1) := by
      rw [List.replicate_succ' (m+1) (v.getD (m+1) 0), List.append_assoc,
        List.singleton_append, ← drop_eq_getD_cons v (m+1) hm]
    rw [minOpsLoop]
    by_cases hlt : v.getD m 0 < v.getD (m+1) 0
    · rw [if_pos hlt]
      have hs₁ : SortedLe (addFirst (m+1) (v.getD (m+1) 0 - v.getD m 0) v) := by
        apply sortedLe_addFirst _ _ _ hs
        intro _ _
        simp only [Nat.add_sub_cancel]
        omega
      have hm₁ : m < (addFirst (m+1) (v.getD (m+1) 0 - v.getD m 0) v).length := by
        rw [addFirst_length]; omega
      rw [ih _ _ hs₁ hm₁]
      have e1 : (addFirst (m+1) (v.getD (m+1) 0 - v.getD m 0) v).getD m 0 =
          v.getD (m+1) 0 := by
        rw [addFirst_getD_lt _ _ _ _ (by omega) (by omega)]; ring
      have e0 : (addFirst (m+1) (v.getD (m+1) 0 - v.getD m 0) v).getD 0 0 =
          v.getD 0 0 + (v.getD (m+1) 0 - v.getD m 0) := by
        rw [addFirst_getD_lt _ _ _ _ (by omega) (by omega)]
      have edrop : (addFirst (m+1) (v.getD (m+1) 0 - v.getD m 0) v).drop (m+1) =
          v.drop (m+1) := by
        apply List.ext_getElem?
        intro j
        rw [List.getElem?_drop, List.getElem?_drop, addFirst_getElem?, if_neg (by omega)]
      rw [e1, e0, edrop, key]
      simp only [Prod.mk.injEq]
      exact ⟨trivial, by ring⟩
    · rw [if_neg hlt]
      have heq : v.getD m 0 = v.getD (m+1) 0 := by
        have := hs m (by omega); omega
      rw [ih v ops hs (by omega), heq, key]

/- ### The simulation loops -/

/-- One unit prefix operation on a sequence of `n` reservoirs: some prefix of
length `k ∈ [1, n]` is raised by exactly 1. -/
def StepRel (n : Nat) (a b : List Int) : Prop :=
  ∃ k, 1 ≤ k ∧ k ≤ n ∧ b = addFirst k 1 a

/-- Full description of the inner `while` loop of `simulate_equalization`,
by induction on the gap `d` it has to close: it fires `d` unit operations on
the first `i+1` reservoirs, appends one snapshot per operation, and keeps the
trace a chain of unit prefix operations ending at the current state. -/
theorem simWhile_spec (d : Nat) :
    ∀ (i : Nat) (v : List Int) (ops : Int) (states : List (List Int)) (n : Nat),
    i + 1 < v.length → v.length = n →
    v.getD (i+1) 0 - v.getD i 0 = (d : Int) →
    List.Chain' (StepRel n) states → states.getLast? = some v →
    (∀ w ∈ states, w.length = n) →
    (simWhile i v ops states).1 = addFirst (i+1) (d : Int) v ∧
    (simWhile i v ops states).2.1 = ops + (d : Int) ∧
    List.Chain' (StepRel n) (simWhile i v ops states).2.2 ∧
    (simWhile i v ops states).2.2.getLast? = some (addFirst (i+1) (d : Int) v) ∧
    (∀ w ∈ (simWhile i v ops states).2.2, w.length = n) ∧
    (simWhile i v ops states).2.2.length = states.length + d := by
  induction d with
  | zero =>
    intro i v ops states n hi hn hgap hchain hlast hmem
    rw [simWhile]
    rw [dif_neg (by omega)]
    push_cast
    rw [addFirst_zero]
    exact ⟨rfl, by ring, hchain, hlast, hmem, by omega⟩
  | succ d ih =>
    intro i v ops states n hi hn hgap hchain hlast hmem
    rw [simWhile, dif_pos (by push_cast at hgap; omega)]
    have hlen := addFirst_length (i+1) 1 v
    have e1 : (addFirst (i+1) 1 v).getD (i+1) 0 = v.getD (i+1) 0 :=
      addFirst_getD_ge _ _ _ _ (le_refl _)
    have e0 : (addFirst (i+1) 1 v).getD i 0 = v.getD i 0 + 1 :=
      addFirst_getD_lt _ _ _ _ (by omega) (by omega)
    have hstep : StepRel n v (addFirst (i+1) 1 v) :=
      ⟨i + 1, by omega, by omega, rfl⟩
    have hchain' : List.Chain' (StepRel n) (states ++ [addFirst (i+1) 1 v]) := by
      rw [List.chain'_append]
      refine ⟨hchain, List.chain'_singleton _, ?_⟩
      intro x hx y hy
      simp only [List.head?_cons, Option.mem_def, Option.some.injEq] at hy
      rw [hlast] at hx
      simp only [Option.mem_def, Option.some.injEq] at hx
      subst hx
      subst hy
      exact hstep
    have hlast' : (states ++ [addFirst (i+1) 1 v]).getLast? = some (addFirst (i+1) 1 v) :=
      List.getLast?_concat states
    have hmem' : ∀ w ∈ states ++ [addFirst (i+1) 1 v], w.length = n := by
      intro w hw
      rcases List.mem_append.mp hw with h | h
      · exact hmem w h
      · simp only [List.mem_singleton] at h
        rw [h, hlen, hn]
    obtain ⟨c1, c2, c3, c4, c5, c6⟩ :=
      ih i (addFirst (i+1) 1 v) (ops + 1) (states ++ [addFirst (i+1) 1 v]) n
        (by omega) (by omega)
        (by rw [e1, e0]; push_cast at hgap ⊢; omega)
        hchain' hlast' hmem'
    rw [addFirst_addFirst] at c1 c4
    push_cast
    refine ⟨?_, ?_, c3, ?_, c5, ?_⟩
    · rw [c1]
    · rw [c2]; ring
    · rw [c4]
    · rw [c6]
      simp only [List.length_append, List.length_singleton]
      omega

/-- Full description of the outer `for` loop of `simulate_equalization` on a
non-decreasing list: the working copy ends with its first `m+1` entries
leveled to the value at index `m`, the count grows by the gap between indices
`m` and `0`, and the trace stays a chain of unit prefix operations whose last
snapshot is the current state and which gains one entry per operation. -/
theorem simLoop_spec (m : Nat) :
    ∀ (v : List Int) (ops : Int) (states : List (List Int)) (n : Nat),
    SortedLe v → m < v.length → v.length = n →
    List.Chain' (StepRel n) states → states.getLast? = some v →
    (∀ w ∈ states, w.length = n) →
    (simLoop m (v, ops, states)).1 =
      List.replicate (m+1) (v.getD m 0) ++ v.drop (m+1) ∧
    (simLoop m (v, ops, states)).2.1 = ops + (v.getD m 0 - v.getD 0 0) ∧
    List.Chain' (StepRel n) (simLoop m (v, ops, states)).2.2 ∧
    (simLoop m (v, ops, states)).2.2.getLast? = some (simLoop m (v, ops, states)).1 ∧
    (∀ w ∈ (simLoop m (v, ops, states)).2.2, w.length = n) ∧
    ((simLoop m (v, ops, states)).2.2.length : Int) =
      (states.length : Int) + (v.getD m 0 - v.getD 0 0) := by
  induction m with
  | zero =>
    intro v ops states n hs hm hn hchain hlast hmem
    have hv : List.replicate 1 (v.getD 0 0) ++ v.drop 1 = v := by
      rw [show List.replicate 1 (v.getD 0 0) ++ v.drop 1 = v.getD 0 0 :: v.drop 1 by simp,
        ← drop_eq_getD_cons v 0 hm, List.drop_zero]
    rw [simLoop, hv]
    exact ⟨rfl, by ring, hchain, hlast, hmem, by ring⟩
  | succ m ih =>
    intro v ops states n hs hm hn hchain hlast hmem
    rw [simLoop]
    have hgap : v.getD m 0 ≤ v.getD (m+1) 0 := hs m (by omega)
    obtain ⟨w1, w2, w3, w4, w5, w6⟩ :=
      simWhile_spec (v.getD (m+1) 0 - v.getD m 0).toNat m v ops states n hm hn
        (by omega) hchain hlast hmem
    set d : Int := v.getD (m+1) 0 - v.getD m 0 with hd
    have hdc : ((d.toNat : Nat) : Int) = d := Int.toNat_of_nonneg (by omega)
    rw [hdc] at w1 w2 w4
    set v₁ := addFirst (m+1) d v with hv₁
    have hlen₁ : v₁.length = v.length := addFirst_length _ _ _
    have hs₁ : SortedLe v₁ := by
      apply sortedLe_addFirst _ _ _ hs
      intro _ _
      simp only [Nat.add_sub_cancel]
      omega
    have e1 : v₁.getD m 0 = v.getD (m+1) 0 := by
      rw [hv₁, addFirst_getD_lt _ _ _ _ (by omega) (by omega)]; ring
    have e0 : v₁.getD 0 0 = v.getD 0 0 + d := by
      rw [hv₁, addFirst_getD_lt _ _ _ _ (by omega) (by omega)]
    have edrop : v₁.drop (m+1) = v.drop (m+1) := by
      apply List.ext_getElem?
      intro j
      rw [List.getElem?_drop, List.getElem?_drop, hv₁, addFirst_getElem?, if_neg (by omega)]
    have key : List.replicate (m+1+1) (v.getD (m+1) 0) ++ v.drop (m+1+1) =
        List.replicate (m+1) (v.getD (m+1) 0) ++ v.drop (m+1) := by
      rw [List.replicate_succ' (m+1) (v.getD (m+1) 0), List.append_assoc,
        List.singleton_append, ← drop_eq_getD_cons v (m+1) hm]
    have hrw : simWhile m v ops states =
        (v₁, ops + d, (simWhile m v ops states).2.2) := by
      apply Prod.ext w1
      apply Prod.ext w2
      rfl
    rw [hrw]
    obtain ⟨r1, r2, r3, r4, r5, r6⟩ :=
      ih v₁ (ops + d) ((simWhile m v ops states).2.2) n hs₁ (by omega) (by omega)
        w3 (by rw [w4]) w5
    rw [e1, edrop] at r1
    rw [e1, e0] at r2
    rw [e1, e0] at r6
    refine ⟨?_, ?_, r3, r4, r5, ?_⟩
    · rw [r1, key]
    · rw [r2]; ring
    · rw [r6, w6]; push_cast; rw [hdc]; ring

/- ### Top-level behaviour of `min_operations` and `simulate_equalization` -/

theorem allSame_mem (v : List Int) (h : allSame v = true) :
    ∀ b ∈ v, b = v.getD 0 0 := by
  cases v with
  | nil => simp
  | cons a t =>
    intro b hb
    rw [allSame, List.all_eq_true] at h
    rcases List.mem_cons.mp hb with rfl | hbt
    · simp
    · have := h b hbt
      rw [beq_iff_eq] at this
      simpa using this

theorem allSame_getD (v : List Int) (h : allSame v = true) (j : Nat)
    (hj : j < v.length) : v.getD j 0 = v.getD 0 0 := by
  rw [List.getD_eq_getElem v 0 hj]
  exact allSame_mem v h _ (List.getElem_mem hj)

/-- The value `min_operations` returns on a non-decreasing non-empty list:
the original last element minus the original first element. -/
theorem min_operations_eq (v : List Int) (hs : SortedLe v) (hne : v ≠ []) :
    min_operations v = v.getD (v.length - 1) 0 - v.getD 0 0 := by
  have ht : can_equalize v = true := (can_equalize_iff v).mpr hs
  have hlen : 0 < v.length := List.length_pos.mpr hne
  rw [min_operations, min_operations_run, if_neg (by simp [ht])]
  by_cases hsame : allSame v = true
  · rw [if_pos hsame]
    have := allSame_getD v hsame (v.length - 1) (by omega)
    simp only
    omega
  · rw [if_neg hsame]
    have := minOpsLoop_spec (v.length - 1) v 0 hs (by omega)
    rw [this]
    simp only
    ring

/-- The content of the caller's list after `min_operations` returns, on a
non-decreasing input: the function levels the list in place, leaving every
entry equal to the original last element. -/
theorem min_operations_run_list (v : List Int) (hs : SortedLe v) :
    (min_operations_run v).1 = List.replicate v.length (v.getD (v.length - 1) 0) := by
  have ht : can_equalize v = true := (can_equalize_iff v).mpr hs
  rw [min_operations_run, if_neg (by simp [ht])]
  by_cases hsame : allSame v = true
  · rw [if_pos hsame]
    rw [List.eq_replicate_iff]
    refine ⟨rfl, ?_⟩
    intro b hb
    have hlen : 0 < v.length := by
      cases v with
      | nil => simp [allSame] at hsame
      | cons a t => simp
    rw [allSame_mem v hsame b hb, allSame_getD v hsame (v.length - 1) (by omega)]
  · rw [if_neg hsame]
    cases v with
    | nil => rfl
    | cons a t =>
      have := minOpsLoop_spec ((a :: t).length - 1) (a :: t) 0 hs (by simp)
      rw [this]
      simp only
      rw [show (a :: t).length - 1 + 1 = (a :: t).length by simp, List.drop_length,
        List.append_nil]

/-- `max(S)` of a non-decreasing non-empty list is its last element. -/
theorem listMax_eq_getD_last (v : List Int) (hs : SortedLe v) (hne : v ≠ []) :
    listMax v = v.getD (v.length - 1) 0 := by
  obtain ⟨a, t, rfl⟩ := List.exists_cons_of_ne_nil hne
  clear hne
  induction t generalizing a with
  | nil => simp [listMax]
  | cons b r ih =>
    rw [sortedLe_cons_cons] at hs
    have hmax : max a b = b := max_eq_right hs.1
    have := ih b hs.2
    rw [listMax] at this ⊢
    rw [List.foldl_cons, hmax, this]
    simp

/-- Joint description of `simulate_equalization` on a feasible non-empty
input: the count, the final state, the trace being a chain of unit prefix
operations over states of the input's length, and the trace length. -/
theorem simulate_spec (v : List Int) (hs : SortedLe v) (hne : v ≠ []) :
    (simulate_equalization v).1 = v.getD (v.length - 1) 0 - v.getD 0 0 ∧
    (simulate_equalization v).2.getLast? =
      some (List.replicate v.length (v.getD (v.length - 1) 0)) ∧
    List.Chain' (StepRel v.length) (simulate_equalization v).2 ∧
    (∀ w ∈ (simulate_equalization v).2, w.length = v.length) ∧
    ((simulate_equalization v).2.length : Int) = 1 + (simulate_equalization v).1 := by
  have ht : can_equalize v = true := (can_equalize_iff v).mpr hs
  have hlen : 0 < v.length := List.length_pos.mpr hne
  rw [simulate_equalization, if_neg (by simp [ht])]
  obtain ⟨r1, r2, r3, r4, r5, r6⟩ :=
    simLoop_spec (v.length - 1) v 0 [v] v.length hs (by omega) rfl
      (List.chain'_singleton v) (List.getLast?_singleton v) (by simp)
  rw [show v.length - 1 + 1 = v.length by omega, List.drop_length, List.append_nil] at r1
  simp only
  rw [r1] at r4
  refine ⟨by rw [r2]; ring, r4, r3, r5, ?_⟩
  rw [r6, r2]
  simp only [List.length_singleton]
  push_cast
  ring

/- ### The claims -/

/-- C1: for every sequence of integers S (including empty and single-element
sequences), `can_equalize(S)` returns true if and only if S is
non-decreasing, i.e. for every i in [1, len(S)-1], S[i] >= S[i-1]. -/
theorem claim_C1 (S : List Int) :
    can_equalize S = true ↔
      ∀ i, 1 ≤ i → i < S.length → S.getD (i-1) 0 ≤ S.getD i 0 := by
  rw [can_equalize_iff]
  constructor
  · intro h i h1 hi
    have := h (i-1) (by omega)
    rw [show i - 1 + 1 = i by omega] at this
    exact this
  · intro h j hj
    have := h (j+1) (by omega) (by omega)
    simpa using this

/-- C2: for every feasible (non-decreasing) sequence S, the integer returned
by `min_operations(S)` equals the operation count returned as the first
component of `simulate_equalization(S)`. -/
theorem claim_C2 (S : List Int) (hS : SortedLe S) :
    min_operations S = (simulate_equalization S).1 := by
  by_cases hne : S = []
  · subst hne; rfl
  · rw [min_operations_eq S hS hne, (simulate_spec S hS hne).1]

theorem claim_C2_witness :
    SortedLe [(1 : Int), 3] ∧
      min_operations [(1 : Int), 3] = (simulate_equalization [(1 : Int), 3]).1 :=
  ⟨by decide, claim_C2 [(1 : Int), 3] (by decide)⟩

/-- C3: for every feasible (non-decreasing) non-empty sequence S of length n,
the last state in the trace returned by `simulate_equalization(S)` is the
constant sequence `[max(S)] * n`. -/
theorem claim_C3 (S : List Int) (hS : SortedLe S) (hne : S ≠ []) :
    (simulate_equalization S).2.getLast? =
      some (List.replicate S.length (listMax S)) := by
  rw [(simulate_spec S hS hne).2.1, listMax_eq_getD_last S hS hne]

theorem claim_C3_witness :
    (SortedLe [(1 : Int), 2] ∧ [(1 : Int), 2] ≠ []) ∧
      (simulate_equalization [(1 : Int), 2]).2.getLast? =
        some (List.replicate 2 (listMax [(1 : Int), 2])) :=
  ⟨⟨by decide, by decide⟩, claim_C3 [(1 : Int), 2] (by decide) (by decide)⟩

/-- C4 as stated is false on the code: for S = [0, 0, 0, 5] (n = 4, M = 5)
the claim demands `min_operations(S) = 5 * (4 - 1) = 15`, but the function
returns 5 (the spec's own concrete scenario `[0, 0, 0, 5] → count = 5`
agrees with the code). -/
theorem claim_C4_counterexample :
    ¬ (min_operations (List.replicate (4 - 1) 0 ++ [(5 : Int)]) = 5 * (4 - 1)) := by
  decide

/-- C4 amended: for every n ≥ 1 and every integer M ≥ 0, `min_operations`
applied to the sequence of n-1 zeros followed by the single value M returns
M when n ≥ 2, and 0 when n = 1. -/
theorem claim_C4_amended (n : Nat) (M : Int) (h1 : 1 ≤ n) (hM : 0 ≤ M) :
    min_operations (List.replicate (n - 1) 0 ++ [M]) =
      if n = 1 then 0 else M := by
  set S := List.replicate (n - 1) 0 ++ [M] with hSdef
  have hlen : S.length = n := by simp [hSdef]; omega
  have hget : ∀ j, j < n → S.getD j 0 = if j < n - 1 then 0 else M := by
    intro j hj
    rw [List.getD_eq_getElem?_getD, hSdef]
    by_cases hj' : j < n - 1
    · rw [List.getElem?_append_left (by simp; omega), List.getElem?_replicate,
        if_pos hj']
      simp [hj']
    · rw [List.getElem?_append_right (by simp; omega)]
      simp only [List.length_replicate]
      rw [show j - (n - 1) = 0 by omega]
      simp [hj']
  have hs : SortedLe S := by
    intro j hj
    rw [hlen] at hj
    rw [hget j (by omega), hget (j+1) (by omega)]
    by_cases h2 : j + 1 < n - 1
    · rw [if_pos (by omega), if_pos h2]
    · rw [if_pos (by omega), if_neg h2]
      exact hM
  have hne : S ≠ [] := by
    rw [hSdef]
    simp
  rw [min_operations_eq S hs hne, hlen, hget (n-1) (by omega), hget 0 (by omega),
    if_neg (show ¬(n - 1 < n - 1) by omega)]
  by_cases h2 : n = 1
  · rw [if_neg (show ¬(0 < n - 1) by omega), if_pos h2]
    ring
  · rw [if_pos (show 0 < n - 1 by omega), if_neg h2]
    ring

theorem claim_C4_amended_witness :
    (1 ≤ 4 ∧ (0 : Int) ≤ 5) ∧
      min_operations (List.replicate (4 - 1) 0 ++ [(5 : Int)]) =
        if 4 = 1 then 0 else 5 :=
  ⟨⟨by decide, by decide⟩, claim_C4_amended 4 5 (by decide) (by decide)⟩

/-- C5 as stated is false on the code: `min_operations` works directly on the
caller's list, so after `min_operations([1, 2])` returns, the caller's list
holds [2, 2], not its original values. -/
theorem claim_C5_counterexample :
    ¬ ((min_operations_run [(1 : Int), 2]).1 = [(1 : Int), 2]) := by
  decide

/-- C5 amended: `min_operations` does have a side effect observable to the
caller: it levels the caller-supplied sequence in place, so after the call on
a feasible (non-decreasing) input the caller's sequence holds the equalized
values `[S[n-1]] * n` (hence it is unchanged only when the input is already
constant or empty); on an infeasible input the sequence is left unchanged. -/
theorem claim_C5_amended (S : List Int) :
    (SortedLe S →
      (min_operations_run S).1 = List.replicate S.length (S.getD (S.length - 1) 0)) ∧
    (¬ SortedLe S → (min_operations_run S).1 = S) := by
  constructor
  · intro hs
    exact min_operations_run_list S hs
  · intro hs
    have hc : can_equalize S = false := by
      rw [← can_equalize_iff] at hs
      simpa using hs
    rw [min_operations_run, if_pos hc]

/-- C6: for every sequence S that is not non-decreasing, `min_operations(S)`
returns the sentinel -1 and `simulate_equalization(S)` returns `(-1, [S])`;
conversely for every non-decreasing S, `min_operations(S)` is non-negative. -/
theorem claim_C6 (S : List Int) :
    (¬ SortedLe S →
      min_operations S = -1 ∧ simulate_equalization S = (-1, [S])) ∧
    (SortedLe S → 0 ≤ min_operations S) := by
  constructor
  · intro h
    have hc : can_equalize S = false := by
      rw [← can_equalize_iff] at h
      simpa using h
    constructor
    · rw [min_operations, min_operations_run, if_pos hc]
    · rw [simulate_equalization, if_pos hc]
  · intro hs
    by_cases hne : S = []
    · subst hne; decide
    · rw [min_operations_eq S hs hne]
      have hlen : 0 < S.length := List.length_pos.mpr hne
      have := sortedLe_getD_mono S hs 0 (S.length - 1) (by omega) (by omega)
      omega

/-- C7: for every feasible (non-decreasing) sequence S, the trace returned by
`simulate_equalization(S)` has length equal to the returned operation count
plus one. -/
theorem claim_C7 (S : List Int) (hS : SortedLe S) :
    ((simulate_equalization S).2.length : Int) = (simulate_equalization S).1 + 1 := by
  by_cases hne : S = []
  · subst hne; rfl
  · rw [(simulate_spec S hS hne).2.2.2.2]
    ring

theorem claim_C7_witness :
    SortedLe [(1 : Int), 3] ∧
      ((simulate_equalization [(1 : Int), 3]).2.length : Int) =
        (simulate_equalization [(1 : Int), 3]).1 + 1 :=
  ⟨by decide, claim_C7 [(1 : Int), 3] (by decide)⟩

/-- C8: for every feasible (non-decreasing) sequence S of length n and every
pair of consecutive states in the trace of `simulate_equalization(S)`, some
k in [1, n] has the later state exceed the earlier by exactly 1 on indices
below k and agree with it from k on: each step is one unit prefix
operation. -/
theorem claim_C8 (S : List Int) (hS : SortedLe S) (m : Nat) (a b : List Int)
    (ha : (simulate_equalization S).2[m]? = some a)
    (hb : (simulate_equalization S).2[m+1]? = some b) :
    ∃ k, 1 ≤ k ∧ k ≤ S.length ∧
      (∀ j, j < k → b.getD j 0 = a.getD j 0 + 1) ∧
      (∀ j, k ≤ j → b.getD j 0 = a.getD j 0) := by
  by_cases hne : S = []
  · subst hne
    rw [show (simulate_equalization ([] : List Int)).2 = [[]] from rfl,
      List.getElem?_eq_none (by simp)] at hb
    cases hb
  · obtain ⟨-, -, hchain, hmem, -⟩ := simulate_spec S hS hne
    obtain ⟨hm, hma⟩ := List.getElem?_eq_some.mp ha
    obtain ⟨hm1, hmb⟩ := List.getElem?_eq_some.mp hb
    have hstep := List.chain'_iff_get.mp hchain m (by omega)
    rw [List.get_eq_getElem, List.get_eq_getElem, hma, hmb] at hstep
    obtain ⟨k, hk1, hk2, hab⟩ := hstep
    have halen : a.length = S.length := hmem a (List.getElem?_mem ha)
    refine ⟨k, hk1, hk2, ?_, ?_⟩
    · intro j hj
      rw [hab, addFirst_getD_lt _ _ _ _ hj (by omega)]
    · intro j hj
      rw [hab, addFirst_getD_ge _ _ _ _ hj]

theorem simWhile_onetwo :
    simWhile 0 [(1 : Int), 2] 0 [[(1 : Int), 2]] =
      ([(2 : Int), 2], 1, [[(1 : Int), 2], [(2 : Int), 2]]) := by
  rw [simWhile, dif_pos (by decide), simWhile, dif_neg (by decide)]
  decide

theorem simulate_onetwo :
    simulate_equalization [(1 : Int), 2] = (1, [[(1 : Int), 2], [(2 : Int), 2]]) := by
  rw [simulate_equalization, if_neg (by decide)]
  show ((simLoop 0 (simWhile 0 [(1 : Int), 2] 0 [[(1 : Int), 2]])).2.1,
        (simLoop 0 (simWhile 0 [(1 : Int), 2] 0 [[(1 : Int), 2]])).2.2) = _
  rw [simWhile_onetwo]
  rfl

theorem claim_C8_witness :
    (SortedLe [(1 : Int), 2] ∧
      (simulate_equalization [(1 : Int), 2]).2[0]? = some [(1 : Int), 2] ∧
      (simulate_equalization [(1 : Int), 2]).2[0+1]? = some [(2 : Int), 2]) ∧
    (∃ k, 1 ≤ k ∧ k ≤ ([(1 : Int), 2]).length ∧
      (∀ j, j < k → ([(2 : Int), 2]).getD j 0 = ([(1 : Int), 2]).getD j 0 + 1) ∧
      (∀ j, k ≤ j → ([(2 : Int), 2]).getD j 0 = ([(1 : Int), 2]).getD j 0)) := by
  have ha : (simulate_equalization [(1 : Int), 2]).2[0]? = some [(1 : Int), 2] := by
    rw [simulate_onetwo]
    rfl
  have hb : (simulate_equalization [(1 : Int), 2]).2[0+1]? = some [(2 : Int), 2] := by
    rw [simulate_onetwo]
    rfl
  exact ⟨⟨by decide, ha, hb⟩, claim_C8 [(1 : Int), 2] (by decide) 0 _ _ ha hb⟩

/-- C9: for the empty sequence and for every single-element sequence S,
`min_operations(S)` returns 0. -/
theorem claim_C9 :
    min_operations ([] : List Int) = 0 ∧ ∀ x : Int, min_operations [x] = 0 := by
  refine ⟨rfl, ?_⟩
  intro x
  rfl

/-- C10: for every non-decreasing non-empty sequence S of integers (negative
values allowed), `min_operations(S)` returns exactly S[len(S)-1] - S[0], the
last element of the original input minus its first element. -/
theorem claim_C10 (S : List Int) (hS : SortedLe S) (hne : S ≠ []) :
    min_operations S = S.getD (S.length - 1) 0 - S.getD 0 0 :=
  min_operations_eq S hS hne

theorem claim_C10_witness :
    (SortedLe [(-3 : Int), 1] ∧ [(-3 : Int), 1] ≠ []) ∧
      min_operations [(-3 : Int), 1] =
        ([(-3 : Int), 1]).getD (([(-3 : Int), 1]).length - 1) 0 -
          ([(-3 : Int), 1]).getD 0 0 :=
  ⟨⟨by decide, by decide⟩, claim_C10 [(-3 : Int), 1] (by decide) (by decide)⟩

end Equalizer
